import Mathlib

/-!
# ding: countdown, render loop and exit watcher

A shallow embedding of `cmd/root.go` and `cmd/hours.go`.

The three goroutines of the program (`startCountDown`, the render loop that
calls `Game.Update` and `Game.Draw`, and `waitForExit`) are modelled as small
step functions on one shared `World`; an interleaving is a list of `Action`s.
Go's `int` is modelled by `Int`: every value the countdown handles lies between
`-1` and the initial duration, so 64-bit wrap-around never occurs.

`hoursCmd.Run` computes its duration in `float64`. A finite `float64` is
modelled exactly as an integer mantissa times a power of two, a product is the
exact product rounded as IEEE 754 prescribes, and `int(f)` discards the
fraction. `strconv.ParseFloat` is not modelled: its two results are the inputs
of `hoursRun`.
-/

namespace Ding

/-! ## Channels and events -/

/-- Capacity of `endtimer`: `make(chan int, 2)`. -/
def endtimerCap : Nat := 2

/-- Send on a buffered channel: succeeds when the buffer has room, otherwise
the sender blocks (`none`). The oldest value is the head of the list. -/
def chanSend (cap : Nat) (buf : List Int) (v : Int) : Option (List Int) :=
  if buf.length < cap then some (buf ++ [v]) else none

/-- Receive from a buffered channel: blocks (`none`) while it is empty. -/
def chanRecv (buf : List Int) : Option (Int × List Int) :=
  match buf with
  | [] => none
  | v :: rest => some (v, rest)

/-- Observable actions of the program, in the order they happen. -/
inductive Event where
  | publish (v : Int)
  | closeDone
  | rewind
  | play
  | closeAudioDone
  | isPlaying (b : Bool)
  | osExit (code : Int)
  | panicCloseOfClosed
  deriving DecidableEq, Repr

/-- How a Go statement hands control on: normally, or with an unlabelled
`break` that still looks for the statement it terminates. -/
inductive Ctl where
  | normal
  | brk
  deriving DecidableEq, Repr

/-- Positions of `startCountDown`. -/
inductive TickerPc where
  | sendFirst
  | select
  | sendNext
  | decrement
  | returned
  deriving DecidableEq, Repr

/-- Positions of `waitForExit`. -/
inductive WatcherPc where
  | waitAudioDone
  | poll
  deriving DecidableEq, Repr

/-- The shared state: the three package-level channels, the audio player, the
local state of each goroutine, and the record of what has happened. -/
structure World where
  endtimer : List Int
  done : Bool
  audioDone : Bool
  playing : Bool
  tickerPc : TickerPc
  waitTime : Int
  watcherPc : WatcherPc
  inDraw : Bool
  exitCode : Option Int
  panicked : Bool
  trace : List Event
  deriving DecidableEq, Repr

/-- State at the start of `hoursCmd.Run` after `go startCountDown(seconds)`. -/
def World.init (seconds : Int) : World :=
  { endtimer := [], done := false, audioDone := false, playing := false,
    tickerPc := .sendFirst, waitTime := seconds, watcherPc := .waitAudioDone,
    inDraw := false, exitCode := none, panicked := false, trace := [] }

/-- The process is still running: no `os.Exit`, no panic. -/
def World.alive (w : World) : Bool := w.exitCode.isNone && !w.panicked

/-! ## startCountDown -/

/-- A `select` (like `switch` and `for`) is the statement an unlabelled `break`
inside it terminates: the `break` ends there. -/
def selectStmt (body : Ctl) : Ctl :=
  match body with
  | .normal => .normal
  | .brk => .normal

/-- The `for { ... }` of `startCountDown` has no condition: it runs its body
again unless a `break` reaches it. -/
def forNext (body : Ctl) : TickerPc :=
  match body with
  | .normal => .select
  | .brk => .returned

/-- The body of `case <-done:` is the single statement `break`. -/
def caseDoneBody : Ctl := .brk

/-- `close(done)`: closing a closed channel panics. -/
def closeDone (w : World) : World :=
  if w.done then { w with panicked := true, trace := w.trace ++ [.panicCloseOfClosed] }
  else { w with done := true, trace := w.trace ++ [.closeDone] }

/-- One step of `startCountDown`; `none` when the goroutine is blocked on a
full `endtimer` or has returned.

In the `select`, `time.After(1 * time.Second)` makes a new timer each time the
statement is evaluated, so while `done` is open the timer case is taken (one
second later), and once `done` is closed `<-done` is the case that is ready. -/
def startCountDownStep (w : World) : Option World :=
  match w.tickerPc with
  | .sendFirst =>
    match chanSend endtimerCap w.endtimer w.waitTime with
    | some buf => some { w with endtimer := buf, tickerPc := .select,
                                trace := w.trace ++ [.publish w.waitTime] }
    | none => none
  | .select =>
    if w.done then some { w with tickerPc := forNext (selectStmt caseDoneBody) }
    else some { w with tickerPc := .sendNext }
  | .sendNext =>
    match chanSend endtimerCap w.endtimer (w.waitTime - 1) with
    | some buf => some { w with endtimer := buf, tickerPc := .decrement,
                                trace := w.trace ++ [.publish (w.waitTime - 1)] }
    | none => none
  | .decrement =>
    let w1 : World := { w with waitTime := w.waitTime - 1 }
    let w2 : World := if w1.waitTime ≤ 0 then closeDone w1 else w1
    some { w2 with tickerPc := forNext (selectStmt .normal) }
  | .returned => none

/-- A consumer that drains `endtimer`: it receives whatever is buffered. -/
def drain (w : World) : World := { w with endtimer := [] }

/-- One step of `startCountDown` next to a draining consumer. -/
def tickerDrained (w : World) : World :=
  match startCountDownStep w with
  | some w1 => drain w1
  | none => w

/-- The world after `n` steps of `startCountDown(seconds)` with a draining consumer. -/
def countdown (seconds : Int) (n : Nat) : World :=
  tickerDrained^[n] (World.init seconds)

/-- A consumer that receives from `endtimer` until it is empty (at most `fuel`
receives) and keeps what it received, in order, in `got`. -/
def receiveAll (w : World) (got : List Int) : Nat → World × List Int
  | 0 => (w, got)
  | fuel + 1 =>
    match chanRecv w.endtimer with
    | none => (w, got)
    | some (v, rest) => receiveAll { w with endtimer := rest } (got ++ [v]) fuel

/-- One step of `startCountDown`, after which the consumer receives everything
that is buffered; the second component is all the consumer has received. -/
def withConsumer (p : World × List Int) : World × List Int :=
  match startCountDownStep p.1 with
  | some w1 => receiveAll w1 p.2 w1.endtimer.length
  | none => p

/-- The world, and the values the consumer has received from `endtimer`, after
`n` steps of `startCountDown(seconds)`. -/
def countdownConsumed (seconds : Int) (n : Nat) : World × List Int :=
  withConsumer^[n] (World.init seconds, [])

/-! ## Game.Update and Game.Draw -/

/-- One call of `Game.Update`: a `select` with a `default`, so it never blocks.
When `done` is closed the first case is ready: `Rewind`, `Play`, `close(audioDone)`. -/
def Update (w : World) : World :=
  if w.done then
    let w1 : World := { w with playing := true, trace := w.trace ++ [.rewind, .play] }
    if w1.audioDone then
      { w1 with panicked := true, trace := w1.trace ++ [.panicCloseOfClosed] }
    else
      { w1 with audioDone := true, trace := w1.trace ++ [.closeAudioDone] }
  else w

/-- Digits of `fmt`'s `%02d`: the decimal digits of the magnitude, filled with
zeros on the left up to the width, one place of which a minus sign takes. -/
def fmtD02 (v : Int) : String :=
  let digits := Nat.toDigits 10 v.natAbs
  let prec := if v < 0 then 1 else 2
  let padded := List.replicate (prec - digits.length) '0' ++ digits
  String.mk ((if v < 0 then ['-'] else []) ++ padded)

/-- Model of `fmt.Sprintf("%02d:%02d:%02d", hours, minutes, seconds)`. -/
def sprintfClock (hours minutes seconds : Int) : String :=
  fmtD02 hours ++ ":" ++ fmtD02 minutes ++ ":" ++ fmtD02 seconds

/-- What one call of `Game.Draw` puts on the screen. -/
inductive Rendered where
  | debugPrint (s : String)
  | text (s : String) (x y : Int)
  deriving DecidableEq, Repr

/-- The readout `Game.Draw` computes from the received value `e`; Go's `/` and
`%` on `int` truncate toward zero. -/
def readout (e : Int) : String :=
  let HOURS : Int := 60 * 60
  let MINUTES : Int := 60
  let hours := Int.tdiv e HOURS
  let minutes := Int.tdiv (Int.tmod e HOURS) MINUTES
  let seconds := Int.tmod e MINUTES
  sprintfClock hours minutes seconds

/-- One call of `Game.Draw`. Its first statement `e := <-endtimer` is a plain
receive: `none` when the channel is empty (the call does not complete). -/
def Draw (w : World) : Option (World × Rendered) :=
  match chanRecv w.endtimer with
  | none => none
  | some (e, rest) =>
    let out := if w.playing then Rendered.debugPrint "Bump!"
               else Rendered.text (readout e) 20 40
    some ({ w with endtimer := rest }, out)

/-! ## waitForExit and the audio player -/

/-- One step of `waitForExit`: wait for `audioDone`, then poll `IsPlaying()`
and call `os.Exit(1)` on the first `false`. `none` while blocked. -/
def waitForExitStep (w : World) : Option World :=
  match w.watcherPc with
  | .waitAudioDone =>
    if w.audioDone then some { w with watcherPc := .poll } else none
  | .poll =>
    if w.playing then some { w with trace := w.trace ++ [.isPlaying true] }
    else some { w with exitCode := some 1,
                       trace := w.trace ++ [.isPlaying false, .osExit 1] }

/-- The audio player reaches the end of its stream. -/
def audioEnds (w : World) : World := { w with playing := false }

/-! ## Interleavings -/

/-- Who moves next. -/
inductive Action where
  | ticker
  | update
  | draw
  | watcher
  | audioEnds
  deriving DecidableEq, Repr

/-- One scheduled move. A goroutine that is blocked stays where it is, and
nothing moves once the process has exited or panicked. `Update` and `Draw` run
on the same thread: no `Update` while a `Draw` waits in its receive. -/
def step (w : World) (a : Action) : World :=
  if !w.alive then w else
  match a with
  | .ticker => (startCountDownStep w).getD w
  | .update => if w.inDraw then w else Update w
  | .draw =>
    match Draw w with
    | some (w1, _) => { w1 with inDraw := false }
    | none => { w with inDraw := true }
  | .watcher => (waitForExitStep w).getD w
  | .audioEnds => audioEnds w

/-- The world after a whole schedule. -/
def run (w : World) (sched : List Action) : World := sched.foldl step w

/-! ## hoursCmd.Run and float64 -/

/-- A `float64` value. `finite m e` is the number `m * 2^e`; the sign of a zero
is not kept, nothing here depends on it. -/
inductive F64 where
  | finite (m : Int) (e : Int)
  | inf (negative : Bool)
  | nan
  deriving DecidableEq, Repr

/-- Number of binary digits of `n`, computed with `fuel` halvings at most. -/
def bitLenAux : Nat → Nat → Nat
  | 0, _ => 0
  | fuel + 1, n => if n = 0 then 0 else bitLenAux fuel (n / 2) + 1

/-- Number of binary digits of `n`: `0` for `0`, else `⌊log₂ n⌋ + 1`. -/
def bitLen (n : Nat) : Nat := bitLenAux n n

/-- The mantissa `n` cut by `sh` binary places, rounded to nearest, ties to even. -/
def roundShift (n sh : Nat) : Nat :=
  let hi := n / 2 ^ sh
  let lo := n % 2 ^ sh
  if 2 ^ sh < 2 * lo ∨ (2 * lo = 2 ^ sh ∧ hi % 2 = 1) then hi + 1 else hi

/-- IEEE 754 rounding of the exact number `m * 2^e` to `float64` (nearest, ties
to even): 53 significant binary digits, the last place not below `2^-1074`,
and infinity from `2^1024` on. -/
def roundF64 (m e : Int) : F64 :=
  let n := m.natAbs
  let q : Int := max (e + bitLen n - 53) (-1074)
  let sh : Nat := (q - e).toNat
  let r : Nat := roundShift n sh
  if r ≠ 0 ∧ 1024 < (bitLen r : Int) + (e + sh) then .inf (decide (m < 0))
  else .finite (if m < 0 then -(r : Int) else r) (e + sh)

/-- The `float64` product `x * y`: the exact product, rounded. -/
def F64.mul : F64 → F64 → F64
  | .finite m1 e1, .finite m2 e2 => roundF64 (m1 * m2) (e1 + e2)
  | .finite m _, .inf s => if m = 0 then .nan else .inf (s != decide (m < 0))
  | .inf s, .finite m _ => if m = 0 then .nan else .inf (s != decide (m < 0))
  | .inf s, .inf t => .inf (s != t)
  | .nan, _ => .nan
  | _, .nan => .nan

/-- The number `m * 2^e` with its fraction discarded (truncation toward zero). -/
def truncPow2 (m e : Int) : Int :=
  if 0 ≤ e then m * 2 ^ e.toNat else Int.tdiv m (2 ^ (-e).toNat)

/-- The conversion `int(f)` of a `float64`: the fraction is discarded; for a
value that a 64-bit `int` cannot hold (and for infinities and NaN) Go leaves
the result to the implementation (`none`). -/
def F64.toInt : F64 → Option Int
  | .finite m e =>
    let t := truncPow2 m e
    if -2 ^ 63 ≤ t ∧ t < 2 ^ 63 then some t else none
  | _ => none

/-- The constant `60` as a `float64`. -/
def sixty : F64 := .finite 60 0

/-- The expression `int(numberFlt * 60 * 60)` of `hoursCmd.Run`. -/
def hoursSeconds (numberFlt : F64) : Option Int :=
  ((numberFlt.mul sixty).mul sixty).toInt

/-- What `hoursCmd.Run` does, in order. -/
inductive Effect where
  | println (line : String)
  | printlnSeconds (label : String) (seconds : Option Int)
  | goStartCountDown (seconds : Option Int)
  | goWaitForExit
  | openGame
  deriving DecidableEq, Repr

/-- The body of `hoursCmd.Run`, given the two results `numberFlt, err` of
`strconv.ParseFloat(args[0], 64)` (`err = true` for `err != nil`; on a syntax
error `ParseFloat` returns the value `0`). -/
def hoursRun (numberFlt : F64) (err : Bool) : List Effect :=
  (if err then [Effect.println "Could not read value for timer."] else [])
    ++ [Effect.printlnSeconds "153762" (hoursSeconds numberFlt),
        Effect.goStartCountDown (hoursSeconds numberFlt),
        Effect.goWaitForExit, Effect.openGame]

/-- The `float64` nearest to `0.3`, the value `ParseFloat` returns for `"0.3"`. -/
def threeTenths : F64 := .finite 5404319552844595 (-54)

/-- The `float64` nearest to `0.03`, the value `ParseFloat` returns for `"0.03"`. -/
def threeHundredths : F64 := .finite 8646911284551352 (-58)

/-! ## Concrete interleavings used below -/

/-- The countdown from `0` has run to its end before the first frame: `0` and
`-1` are buffered and `done` is closed. -/
def finishedBeforeFirstFrame : World :=
  run (World.init 0) [.ticker, .ticker, .ticker, .ticker]

/-- After that, one render cycle: `Update` starts the alert, `Draw` shows a value. -/
def afterFirstCycle : World :=
  run finishedBeforeFirstFrame [.update, .draw]

/-- After the alert has started, `waitForExit` has seen `audioDone` and polled
once while the sound played, and the sound has ended. -/
def soundEnded : List Action :=
  [.ticker, .ticker, .ticker, .ticker, .update, .watcher, .watcher, .audioEnds]

/-- The state in which `waitForExit` is about to observe `IsPlaying() == false`. -/
def aboutToExit : World := run (World.init 0) soundEnded

/-- A countdown from `5` after its first value has been published and drawn:
`endtimer` is empty and the next publish is a second away. -/
def betweenPublishes : World :=
  run (World.init 5) [.ticker, .update, .draw]

/-! ## Auxiliary definitions for the proofs -/

/-- The world of a countdown whose ticker stands at its `select` with an empty `endtimer`. -/
def atSelect (seconds waitTime : Int) (trace : List Event) (done : Bool) : World :=
  { World.init seconds with
    tickerPc := .select, waitTime := waitTime, trace := trace, done := done }

/-- The values of the publishes recorded in a trace, in order. -/
def publishedValues (tr : List Event) : List Int :=
  tr.filterMap fun ev =>
    match ev with
    | .publish v => some v
    | _ => none

/-- The publishes of `n`, `n - 1`, ..., `0`, in that order. -/
def publishesFrom (n : Nat) : List Event :=
  (List.range (n + 1)).reverse.map fun (k : Nat) => Event.publish (k : Int)

/-- What holds in every state an interleaving can reach. -/
def Inv (w : World) : Prop :=
  (w.audioDone = true → w.done = true) ∧
  (w.done = true → w.tickerPc = .select) ∧
  (w.watcherPc = .poll → w.audioDone = true) ∧
  (w.exitCode ≠ none →
    w.audioDone = true ∧ ∃ pre, w.trace = pre ++ [.isPlaying false, .osExit 1]) ∧
  (w.panicked = true → w.audioDone = true)

/-! ## Lemmas on the countdown -/

theorem countdown_one (D : Int) :
    countdown D 1 = atSelect D D [.publish D] false := by
  simp [countdown, tickerDrained, startCountDownStep, chanSend, endtimerCap, World.init, drain, atSelect]

theorem tick_open (D wt : Int) (tr : List Event) (h : 1 < wt) :
    tickerDrained^[3] (atSelect D wt tr false)
      = atSelect D (wt - 1) (tr ++ [.publish (wt - 1)]) false := by
  have h1 : ¬ (wt - 1 ≤ 0) := by omega
  simp [tickerDrained, startCountDownStep, chanSend, endtimerCap, World.init, drain, atSelect,
    forNext, selectStmt, h1]

theorem tick_last (D wt : Int) (tr : List Event) (h : wt ≤ 1) :
    tickerDrained^[3] (atSelect D wt tr false)
      = atSelect D (wt - 1) (tr ++ [.publish (wt - 1), .closeDone]) true := by
  have h1 : wt - 1 ≤ 0 := by omega
  simp [tickerDrained, startCountDownStep, chanSend, endtimerCap, World.init, drain, atSelect,
    forNext, selectStmt, closeDone, h1]

theorem tick_closed (D wt : Int) (tr : List Event) :
    tickerDrained (atSelect D wt tr true) = atSelect D wt tr true := by
  simp [tickerDrained, startCountDownStep, World.init, drain, atSelect, forNext, selectStmt,
    caseDoneBody]

theorem tick_closed_iter (D wt : Int) (tr : List Event) (n : Nat) :
    tickerDrained^[n] (atSelect D wt tr true) = atSelect D wt tr true := by
  induction n with
  | zero => rfl
  | succ n ih => rw [Function.iterate_succ_apply, tick_closed, ih]

theorem publishesFrom_succ (n : Nat) :
    publishesFrom (n + 1) = Event.publish ((n : Int) + 1) :: publishesFrom n := by
  simp [publishesFrom, List.range_succ]

theorem ticks_to_zero (D : Int) (n : Nat) (tr : List Event) :
    tickerDrained^[3 * (n + 1)] (atSelect D ((n : Int) + 1) tr false)
      = atSelect D 0 (tr ++ publishesFrom n ++ [.closeDone]) true := by
  induction n generalizing tr with
  | zero =>
    have h := tick_last D 1 tr (le_refl 1)
    simpa [publishesFrom] using h
  | succ n ih =>
    have e : 3 * (n + 1 + 1) = 3 * (n + 1) + 3 := by ring
    rw [e, Function.iterate_add_apply]
    have h := tick_open D (((n + 1 : Nat) : Int) + 1) tr (by push_cast; omega)
    rw [h]
    have h2 : ((n + 1 : Nat) : Int) + 1 - 1 = (n : Int) + 1 := by push_cast; ring
    rw [h2, ih, publishesFrom_succ]
    simp

theorem countdown_done (n k : Nat) :
    countdown ((n : Int) + 1) (3 * (n + 1) + 1 + k)
      = atSelect ((n : Int) + 1) 0 (publishesFrom (n + 1) ++ [.closeDone]) true := by
  have e : 3 * (n + 1) + 1 + k = k + (3 * (n + 1) + 1) := by ring
  rw [countdown, e, Function.iterate_add_apply, Function.iterate_add_apply,
    Function.iterate_one]
  have h1 := countdown_one ((n : Int) + 1)
  rw [countdown, Function.iterate_one] at h1
  rw [h1, ticks_to_zero, tick_closed_iter, publishesFrom_succ]
  simp

theorem countdown_zero (k : Nat) :
    countdown 0 (k + 4) = atSelect 0 (-1) [.publish 0, .publish (-1), .closeDone] true := by
  rw [countdown, Function.iterate_add_apply]
  have h : tickerDrained^[4] (World.init 0)
      = atSelect 0 (-1) [.publish 0, .publish (-1), .closeDone] true := by
    have h1 := countdown_one 0
    rw [countdown, Function.iterate_one] at h1
    have e : (4 : Nat) = 3 + 1 := rfl
    rw [e, Function.iterate_add_apply, Function.iterate_one, h1]
    simpa using tick_last 0 0 [.publish 0] (by decide)
  rw [h, tick_closed_iter]

/-! ## Lemmas on the receiving consumer -/

theorem receiveAll_spec (fuel : Nat) : ∀ (w : World) (got : List Int),
    w.endtimer.length ≤ fuel →
      receiveAll w got fuel = ({ w with endtimer := [] }, got ++ w.endtimer) := by
  induction fuel with
  | zero =>
    intro w got h
    have h0 : w.endtimer = [] := List.length_eq_zero.mp (Nat.le_zero.mp h)
    cases w
    simp_all [receiveAll]
  | succ fuel ih =>
    intro w got h
    cases hb : w.endtimer with
    | nil =>
      cases w
      simp_all [receiveAll, chanRecv]
    | cons v rest =>
      have hl : rest.length ≤ fuel := by rw [hb] at h; simpa using h
      simp only [receiveAll, chanRecv, hb]
      rw [ih { w with endtimer := rest } (got ++ [v]) hl]
      simp

theorem withConsumer_eq (w : World) (got : List Int) :
    withConsumer (w, got)
      = match startCountDownStep w with
        | some w1 => (drain w1, got ++ w1.endtimer)
        | none => (w, got) := by
  unfold withConsumer
  cases h : startCountDownStep w with
  | none => rfl
  | some w1 => simp only [receiveAll_spec _ w1 got (le_refl _)]; rfl

theorem step_publishes (w w1 : World) (he : w.endtimer = [])
    (h : startCountDownStep w = some w1) :
    publishedValues w1.trace = publishedValues w.trace ++ w1.endtimer := by
  unfold startCountDownStep at h
  split at h
  · simp only [chanSend, he, endtimerCap] at h
    simp only [List.length_nil, Nat.ofNat_pos, ↓reduceIte, List.nil_append,
      Option.some.injEq] at h
    subst h
    simp [publishedValues, List.filterMap_append]
  · split at h <;>
      (simp only [Option.some.injEq] at h; subst h; simp [he])
  · simp only [chanSend, he, endtimerCap] at h
    simp only [List.length_nil, Nat.ofNat_pos, ↓reduceIte, List.nil_append,
      Option.some.injEq] at h
    subst h
    simp [publishedValues, List.filterMap_append]
  · simp only [Option.some.injEq] at h
    split at h <;>
      (subst h; simp [he, closeDone, publishedValues, List.filterMap_append]
       try (split <;> simp [List.filterMap_append]))
  · simp at h

theorem countdownConsumed_spec (D : Int) (n : Nat) :
    (countdownConsumed D n).1 = countdown D n
      ∧ (countdownConsumed D n).1.endtimer = []
      ∧ (countdownConsumed D n).2 = publishedValues (countdown D n).trace := by
  induction n with
  | zero => simp [countdownConsumed, countdown, World.init, publishedValues]
  | succ n ih =>
    obtain ⟨h1, h2, h3⟩ := ih
    have hc : countdownConsumed D (n + 1) = withConsumer (countdownConsumed D n) := by
      rw [countdownConsumed, Function.iterate_succ_apply']; rfl
    have hd : countdown D (n + 1) = tickerDrained (countdown D n) := by
      rw [countdown, Function.iterate_succ_apply']; rfl
    have hp : countdownConsumed D n = (countdown D n, (countdownConsumed D n).2) := by
      rw [← h1]
    rw [hc, hd, hp, withConsumer_eq]
    rw [h1] at h2
    unfold tickerDrained
    cases hs : startCountDownStep (countdown D n) with
    | none => exact ⟨rfl, h2, h3⟩
    | some w1 =>
      refine ⟨rfl, rfl, ?_⟩
      simp only [drain]
      rw [step_publishes _ w1 h2 hs, h3]

theorem publishedValues_publishesFrom (n : Nat) :
    publishedValues (publishesFrom n ++ [Event.closeDone])
      = (List.range (n + 1)).reverse.map fun (k : Nat) => (k : Int) := by
  simp only [publishedValues, publishesFrom, List.filterMap_append, List.filterMap_map]
  simp only [Function.comp_def, List.filterMap_cons, List.filterMap_nil, List.append_nil]
  have hf : (fun x : Nat => (some (x : Int) : Option Int)) = some ∘ fun (k : Nat) => (k : Int) :=
    rfl
  rw [hf, List.filterMap_eq_map]

/-! ## Invariants of every interleaving -/

theorem startCountDownStep_pc (w w1 : World) (h : startCountDownStep w = some w1) :
    w1.tickerPc ≠ .returned := by
  unfold startCountDownStep at h
  split at h
  · split at h
    · simp only [Option.some.injEq] at h; subst h; simp
    · simp at h
  · split at h <;>
      (simp only [Option.some.injEq] at h; subst h; simp [forNext, selectStmt, caseDoneBody])
  · split at h
    · simp only [Option.some.injEq] at h; subst h; simp
    · simp at h
  · simp only [Option.some.injEq] at h; subst h; simp [forNext, selectStmt]
  · simp at h

theorem step_tickerPc (w : World) (a : Action) (h : w.tickerPc ≠ .returned) :
    (step w a).tickerPc ≠ .returned := by
  unfold step
  split
  · exact h
  · cases a with
    | ticker =>
      cases ht : startCountDownStep w with
      | none => simpa using h
      | some w1 => simpa using startCountDownStep_pc w w1 ht
    | update =>
      simp only [Update]
      split
      · exact h
      · split
        · split <;> simpa using h
        · exact h
    | draw =>
      simp only [Draw]
      split
      · rename_i w1 r hd
        split at hd
        · simp at hd
        · simp only [Option.some.injEq, Prod.mk.injEq] at hd
          obtain ⟨hd1, _⟩ := hd
          subst hd1
          simpa using h
      · simpa using h
    | watcher =>
      cases hw : waitForExitStep w with
      | none => simpa using h
      | some w1 =>
        unfold waitForExitStep at hw
        split at hw
        · split at hw
          · simp only [Option.some.injEq] at hw; subst hw; simpa using h
          · simp at hw
        · split at hw <;> (simp only [Option.some.injEq] at hw; subst hw; simpa using h)
    | audioEnds => simpa [audioEnds] using h

theorem run_tickerPc (w : World) (sched : List Action) (h : w.tickerPc ≠ .returned) :
    (run w sched).tickerPc ≠ .returned := by
  induction sched generalizing w with
  | nil => exact h
  | cons a rest ih => exact ih (step w a) (step_tickerPc w a h)

theorem countdown_tickerPc (D : Int) (n : Nat) :
    (countdown D n).tickerPc ≠ .returned := by
  induction n with
  | zero => simp [countdown, World.init]
  | succ n ih =>
    rw [countdown, Function.iterate_succ_apply']
    change (tickerDrained (countdown D n)).tickerPc ≠ .returned
    unfold tickerDrained
    cases ht : startCountDownStep (countdown D n) with
    | none => simpa using ih
    | some w1 => simpa [drain] using startCountDownStep_pc _ w1 ht

theorem inv_init (D : Int) : Inv (World.init D) := by
  simp [Inv, World.init]

theorem inv_startCountDownStep (w w1 : World) (hi : Inv w) (hx : w.exitCode = none)
    (h : startCountDownStep w = some w1) : Inv w1 := by
  obtain ⟨h1, h2, h3, h4, h5⟩ := hi
  unfold startCountDownStep at h
  split at h
  · rename_i hpc
    split at h
    · simp only [Option.some.injEq] at h; subst h
      have hd : w.done = false := by
        cases hdn : w.done with
        | false => rfl
        | true => rw [h2 hdn] at hpc; cases hpc
      have ha : w.audioDone = false := by
        cases han : w.audioDone with
        | false => rfl
        | true => rw [h1 han] at hd; cases hd
      refine ⟨?_, ?_, ?_, ?_, ?_⟩ <;> simp_all
    · simp at h
  · split at h <;>
      (simp only [Option.some.injEq] at h; subst h
       refine ⟨?_, ?_, ?_, ?_, ?_⟩ <;> simp_all [forNext, selectStmt, caseDoneBody])
  · rename_i hpc
    split at h
    · simp only [Option.some.injEq] at h; subst h
      have hd : w.done = false := by
        cases hdn : w.done with
        | false => rfl
        | true => rw [h2 hdn] at hpc; cases hpc
      have ha : w.audioDone = false := by
        cases han : w.audioDone with
        | false => rfl
        | true => rw [h1 han] at hd; cases hd
      refine ⟨?_, ?_, ?_, ?_, ?_⟩ <;> simp_all
    · simp at h
  · rename_i hpc
    have hd : w.done = false := by
      cases hdn : w.done with
      | false => rfl
      | true => rw [h2 hdn] at hpc; cases hpc
    have ha : w.audioDone = false := by
      cases han : w.audioDone with
      | false => rfl
      | true => rw [h1 han] at hd; cases hd
    simp only [Option.some.injEq] at h
    split at h <;>
      (subst h
       refine ⟨?_, ?_, ?_, ?_, ?_⟩ <;> simp_all [forNext, selectStmt, closeDone])
  · simp at h

theorem inv_step (w : World) (a : Action) (hi : Inv w) : Inv (step w a) := by
  unfold step
  split
  · exact hi
  · rename_i hal
    have hx : w.exitCode = none := by
      cases hc : w.exitCode with
      | none => rfl
      | some c => simp [World.alive, hc] at hal
    have hp : w.panicked = false := by
      cases hc : w.panicked with
      | false => rfl
      | true => simp [World.alive, hc] at hal
    cases a with
    | ticker =>
      cases ht : startCountDownStep w with
      | none => simpa using hi
      | some w1 => simpa using inv_startCountDownStep w w1 hi hx ht
    | update =>
      obtain ⟨h1, h2, h3, h4, h5⟩ := hi
      simp only [Update]
      split
      · exact ⟨h1, h2, h3, h4, h5⟩
      · split
        · split <;> (refine ⟨?_, ?_, ?_, ?_, ?_⟩ <;> simp_all)
        · exact ⟨h1, h2, h3, h4, h5⟩
    | draw =>
      obtain ⟨h1, h2, h3, h4, h5⟩ := hi
      simp only [Draw]
      split
      · rename_i w1 r hd
        split at hd
        · simp at hd
        · simp only [Option.some.injEq, Prod.mk.injEq] at hd
          obtain ⟨hd1, _⟩ := hd
          subst hd1
          refine ⟨?_, ?_, ?_, ?_, ?_⟩ <;> simp_all
      · refine ⟨?_, ?_, ?_, ?_, ?_⟩ <;> simp_all
    | watcher =>
      obtain ⟨h1, h2, h3, h4, h5⟩ := hi
      cases hw : waitForExitStep w with
      | none => simpa using ⟨h1, h2, h3, h4, h5⟩
      | some w1 =>
        unfold waitForExitStep at hw
        split at hw
        · split at hw
          · simp only [Option.some.injEq] at hw; subst hw
            refine ⟨?_, ?_, ?_, ?_, ?_⟩ <;> simp_all
          · simp at hw
        · split at hw
          · simp only [Option.some.injEq] at hw; subst hw
            refine ⟨?_, ?_, ?_, ?_, ?_⟩ <;> simp_all
          · simp only [Option.some.injEq] at hw; subst hw
            refine ⟨?_, ?_, ?_, ?_, ?_⟩ <;> simp_all
    | audioEnds =>
      obtain ⟨h1, h2, h3, h4, h5⟩ := hi
      refine ⟨?_, ?_, ?_, ?_, ?_⟩ <;> simp_all [audioEnds]

theorem inv_run (w : World) (sched : List Action) (hi : Inv w) : Inv (run w sched) := by
  induction sched generalizing w with
  | nil => exact hi
  | cons a rest ih => exact ih (step w a) (inv_step w a hi)

/-! ## Lemmas on float64 rounding -/

theorem bitLenAux_zero (fuel : Nat) : bitLenAux fuel 0 = 0 := by
  cases fuel <;> simp [bitLenAux]

theorem bitLenAux_spec (fuel : Nat) : ∀ n : Nat, n ≤ fuel → n ≠ 0 →
    ∃ L, bitLenAux fuel n = L + 1 ∧ 2 ^ L ≤ n ∧ n < 2 ^ (L + 1) := by
  induction fuel with
  | zero => intro n h h0; omega
  | succ fuel ih =>
    intro n h h0
    simp only [bitLenAux, h0, if_false]
    by_cases h2 : n / 2 = 0
    · refine ⟨0, ?_, ?_, ?_⟩
      · rw [h2, bitLenAux_zero]
      · simp; omega
      · simp; omega
    · obtain ⟨L, hL, hlo, hhi⟩ := ih (n / 2) (by omega) h2
      refine ⟨L + 1, by rw [hL], ?_, ?_⟩
      · rw [pow_succ]; omega
      · rw [pow_succ]; omega

theorem bitLen_zero : bitLen 0 = 0 := rfl

theorem bitLen_spec (n : Nat) (h0 : n ≠ 0) :
    ∃ L, bitLen n = L + 1 ∧ 2 ^ L ≤ n ∧ n < 2 ^ (L + 1) :=
  bitLenAux_spec n n (le_refl n) h0

theorem bitLen_le (n j : Nat) (h : n < 2 ^ j) : bitLen n ≤ j := by
  by_cases h0 : n = 0
  · subst h0; simp [bitLen_zero]
  · obtain ⟨L, hL, hlo, _⟩ := bitLen_spec n h0
    have : 2 ^ L < 2 ^ j := lt_of_le_of_lt hlo h
    have := (Nat.pow_lt_pow_iff_right (by decide : 1 < 2)).mp this
    omega

theorem roundShift_zero (n : Nat) : roundShift n 0 = n := by
  simp [roundShift, Nat.mod_one]

theorem roundShift_spec (n sh : Nat) :
    2 * (roundShift n sh * 2 ^ sh) ≤ 2 * n + 2 ^ sh
      ∧ 2 * n ≤ 2 * (roundShift n sh * 2 ^ sh) + 2 ^ sh := by
  have hdm := Nat.div_add_mod n (2 ^ sh)
  have hlt : n % 2 ^ sh < 2 ^ sh := Nat.mod_lt _ (by positivity)
  unfold roundShift
  simp only
  split
  · rename_i hup
    rw [Nat.add_mul, one_mul]
    have : 2 ^ sh * (n / 2 ^ sh) = n / 2 ^ sh * 2 ^ sh := Nat.mul_comm _ _
    omega
  · rename_i hup
    have : 2 ^ sh * (n / 2 ^ sh) = n / 2 ^ sh * 2 ^ sh := Nat.mul_comm _ _
    omega

theorem roundF64_shift (n : Nat) (e : Int) (he : -1074 ≤ e) :
    (max (e + (bitLen n : Int) - 53) (-1074) - e).toNat = bitLen n - 53 := by
  omega

theorem roundF64_natCast (n : Nat) (e : Int) (he : -1074 ≤ e)
    (hov : (bitLen (roundShift n (bitLen n - 53)) : Int) + (e + (bitLen n - 53 : Nat)) ≤ 1024) :
    roundF64 (n : Int) e
      = F64.finite (roundShift n (bitLen n - 53) : Nat) (e + (bitLen n - 53 : Nat)) := by
  unfold roundF64
  simp only [Int.natAbs_ofNat, roundF64_shift n e he]
  rw [if_neg (by omega)]
  simp

theorem truncPow2_natCast (r j : Nat) :
    truncPow2 (r : Int) (-(j : Int)) = ((r / 2 ^ j : Nat) : Int) := by
  unfold truncPow2
  by_cases hj : j = 0
  · subst hj; simp
  · rw [if_neg (by omega)]
    have hn : (-(-(j : Int))).toNat = j := by omega
    rw [hn, Int.tdiv_eq_ediv (Int.natCast_nonneg r) (by positivity)]
    push_cast
    rfl

theorem stage_spec (x : Nat) :
    roundShift x (bitLen x - 53) ≤ 2 ^ 53
      ∧ (bitLen x - 53 = 0 → roundShift x (bitLen x - 53) = x)
      ∧ (0 < bitLen x - 53 → 2 ^ (bitLen x - 53) * 2 ^ 52 ≤ x) := by
  by_cases h0 : x = 0
  · subst h0
    simp [bitLen_zero, roundShift_zero]
  · obtain ⟨L, hL, hlo, hhi⟩ := bitLen_spec x h0
    rw [hL]
    by_cases hs : L + 1 - 53 = 0
    · rw [hs, roundShift_zero]
      refine ⟨?_, fun _ => rfl, fun h => absurd h (lt_irrefl 0)⟩
      have : 2 ^ (L + 1) ≤ 2 ^ 53 := Nat.pow_le_pow_right (by decide) (by omega)
      omega
    · have hsL : L + 1 - 53 + 52 = L := by omega
      have hp : 2 ^ (L + 1 - 53) * 2 ^ 52 = 2 ^ L := by rw [← pow_add, hsL]
      refine ⟨?_, fun h => absurd h hs, fun _ => by rw [hp]; exact hlo⟩
      obtain ⟨h1, _⟩ := roundShift_spec x (L + 1 - 53)
      have hp2 : 2 ^ (L + 1) = 2 * 2 ^ L := by rw [pow_succ]; ring
      have hpos : 0 < 2 ^ (L + 1 - 53) := by positivity
      by_contra hc
      have hr : 2 ^ 53 + 1 ≤ roundShift x (L + 1 - 53) := by omega
      have hm := Nat.mul_le_mul_right (2 ^ (L + 1 - 53)) hr
      rw [Nat.add_mul, one_mul] at hm
      have hq : 2 ^ 53 * 2 ^ (L + 1 - 53) = 2 * 2 ^ L := by
        rw [← hp]; ring
      omega

theorem pow_le_of_mul_le (a b c : Nat) (hc : 0 < c) (h : c * 2 ^ a ≤ 2 ^ b) : a ≤ b := by
  have h1 : 2 ^ a ≤ 2 ^ b := le_trans (Nat.le_mul_of_pos_left _ hc) h
  exact (Nat.pow_le_pow_iff_right (by decide : 1 < 2)).mp h1

theorem mulSixty_nat (n : Nat) (e : Int) (he : -1074 ≤ e)
    (hov : e + (bitLen (n * 60) - 53 : Nat) ≤ 0) :
    (F64.finite (n : Int) e).mul sixty
      = F64.finite (roundShift (n * 60) (bitLen (n * 60) - 53) : Nat)
          (e + (bitLen (n * 60) - 53 : Nat)) := by
  have hr := (stage_spec (n * 60)).1
  have hb : bitLen (roundShift (n * 60) (bitLen (n * 60) - 53)) ≤ 54 :=
    bitLen_le _ 54 (lt_of_le_of_lt hr (by norm_num))
  have h := roundF64_natCast (n * 60) e he (by omega)
  simp only [F64.mul, sixty, add_zero]
  rw [← h]
  push_cast
  rfl

theorem div_close (A B P : Nat) (hP : 0 < P) (h1 : A < B + P) (h2 : B < A + P) :
    A / P ≤ B / P + 1 ∧ B / P ≤ A / P + 1 := by
  constructor
  · have := Nat.div_le_div_right (c := P) (le_of_lt h1)
    rwa [Nat.add_div_right _ hP] at this
  · have := Nat.div_le_div_right (c := P) (le_of_lt h2)
    rwa [Nat.add_div_right _ hP] at this

theorem hoursSeconds_nat (n k : Nat) (hk : k ≤ 1074) (hb : n * 3600 ≤ 2 ^ (51 + k)) :
    ∃ d r e r1 e1, (F64.finite (n : Int) (-(k : Int))).mul sixty = F64.finite r1 e1
      ∧ (F64.finite r1 e1).mul sixty = F64.finite ((r : Nat) : Int) (-((e : Nat) : Int))
      ∧ r / 2 ^ e = d ∧ d ≤ 2251799813685249
      ∧ d ≤ n * 3600 / 2 ^ k + 1 ∧ n * 3600 / 2 ^ k ≤ d + 1
      ∧ (n * 3600 < 2 ^ 53 → d = n * 3600 / 2 ^ k) := by
  obtain ⟨s1, hs1⟩ : ∃ s1, bitLen (n * 60) - 53 = s1 := ⟨_, rfl⟩
  obtain ⟨r1, hr1⟩ : ∃ r1, roundShift (n * 60) s1 = r1 := ⟨_, rfl⟩
  obtain ⟨s2, hs2⟩ : ∃ s2, bitLen (r1 * 60) - 53 = s2 := ⟨_, rfl⟩
  obtain ⟨r2, hr2⟩ : ∃ r2, roundShift (r1 * 60) s2 = r2 := ⟨_, rfl⟩
  have A1 := stage_spec (n * 60)
  have B1 := roundShift_spec (n * 60) (bitLen (n * 60) - 53)
  have A2 := stage_spec (r1 * 60)
  have B2 := roundShift_spec (r1 * 60) (bitLen (r1 * 60) - 53)
  rw [hs1, hr1] at A1 B1
  rw [hs2, hr2] at A2 B2
  obtain ⟨_, hz1, hp1⟩ := A1
  obtain ⟨hu1, hl1⟩ := B1
  obtain ⟨_, hz2, hp2⟩ := A2
  obtain ⟨hu2, hl2⟩ := B2
  have e51 : (2 : ℕ) ^ (51 + k) = 2251799813685248 * 2 ^ k := by rw [pow_add]; norm_num
  have e52 : (2 : ℕ) ^ 52 = 4503599627370496 := by norm_num
  rw [e51] at hb
  rw [e52] at hp1 hp2
  have P1pos : 0 < 2 ^ s1 := by positivity
  have P2pos : 0 < 2 ^ s2 := by positivity
  have Ppos : 0 < 2 ^ k := by positivity
  -- the first product
  have h1 : s1 = 0 ∨ 120 * 2 ^ s1 ≤ 2 ^ k := by
    by_cases h : s1 = 0
    · exact Or.inl h
    · exact Or.inr (by have := hp1 (by omega); omega)
  have hs1k : s1 ≤ k := by
    rcases h1 with h | h
    · omega
    · exact pow_le_of_mul_le s1 k 120 (by decide) h
  have hR1z : s1 = 0 → r1 * 2 ^ s1 = n * 60 := by
    intro h; rw [← hz1 h, h]; simp
  -- the second product, scaled by `2 ^ s1`
  obtain ⟨R1, hR1⟩ : ∃ R1, r1 * 2 ^ s1 = R1 := ⟨_, rfl⟩
  obtain ⟨Q, hQ⟩ : ∃ Q, 2 ^ s2 * 2 ^ s1 = Q := ⟨_, rfl⟩
  obtain ⟨A, hA⟩ : ∃ A, r2 * 2 ^ s2 * 2 ^ s1 = A := ⟨_, rfl⟩
  rw [hR1] at hu1 hl1 hR1z
  have hu2' : 2 * A ≤ 120 * R1 + Q := by
    have := Nat.mul_le_mul_right (2 ^ s1) hu2
    have e1 : 2 * (r2 * 2 ^ s2) * 2 ^ s1 = 2 * A := by rw [← hA]; ring
    have e2 : (2 * (r1 * 60) + 2 ^ s2) * 2 ^ s1 = 120 * R1 + Q := by rw [← hR1, ← hQ]; ring
    rwa [e1, e2] at this
  have hl2' : 120 * R1 ≤ 2 * A + Q := by
    have := Nat.mul_le_mul_right (2 ^ s1) hl2
    have e1 : (2 * (r2 * 2 ^ s2) + 2 ^ s2) * 2 ^ s1 = 2 * A + Q := by rw [← hA, ← hQ]; ring
    have e2 : 2 * (r1 * 60) * 2 ^ s1 = 120 * R1 := by rw [← hR1]; ring
    rwa [e1, e2] at this
  have hA0 : s2 = 0 → A = 60 * R1 := by
    intro h; rw [← hA, ← hR1, hz2 h, h]; simp; ring
  have hQ0 : s2 = 0 → Q = 2 ^ s1 := by
    intro h; rw [← hQ, h]; simp
  have hQ1 : 0 < s2 → Q * 4503599627370496 ≤ 60 * R1 := by
    intro h
    have := Nat.mul_le_mul_right (2 ^ s1) (hp2 h)
    have e1 : 2 ^ s2 * 4503599627370496 * 2 ^ s1 = Q * 4503599627370496 := by rw [← hQ]; ring
    have e2 : r1 * 60 * 2 ^ s1 = 60 * R1 := by rw [← hR1]; ring
    rwa [e1, e2] at this
  have hQk : Q ≤ 2 ^ k ∧ A < n * 3600 + 2 ^ k ∧ n * 3600 < A + 2 ^ k := by
    rcases Nat.eq_zero_or_pos s2 with h2 | h2
    · have := hA0 h2
      have := hQ0 h2
      have := Nat.pow_le_pow_right (by decide : 0 < 2) hs1k
      rcases h1 with h | h
      · have := hR1z h
        omega
      · omega
    · have := hQ1 h2
      rcases h1 with h | h
      · have := hR1z h
        omega
      · omega
  obtain ⟨hQk, hAB1, hAB2⟩ := hQk
  have hsk : s2 + s1 ≤ k := by
    rw [← hQ, ← pow_add] at hQk
    exact (Nat.pow_le_pow_iff_right (by decide : 1 < 2)).mp hQk
  -- evaluate the code
  have m1 := mulSixty_nat n (-(k : Int)) (by omega) (by rw [hs1]; omega)
  rw [hs1, hr1] at m1
  have m2 := mulSixty_nat r1 (-(k : Int) + (s1 : Int)) (by omega) (by rw [hs2]; omega)
  rw [hs2, hr2] at m2
  have hexp : (-(k : Int) + (s1 : Int) + (s2 : Int)) = -((k - (s2 + s1) : Nat) : Int) := by
    omega
  have hd : r2 / 2 ^ (k - (s2 + s1)) = A / 2 ^ k := by
    have e1 : A = r2 * 2 ^ (s2 + s1) := by rw [← hA, pow_add]; ring
    have e2 : 2 ^ k = 2 ^ (k - (s2 + s1)) * 2 ^ (s2 + s1) := by
      rw [← pow_add, Nat.sub_add_cancel hsk]
    rw [e1, e2, Nat.mul_div_mul_right _ _ (by positivity)]
  obtain ⟨c1, c2⟩ := div_close A (n * 3600) (2 ^ k) Ppos hAB1 hAB2
  have hB : n * 3600 / 2 ^ k ≤ 2251799813685248 :=
    Nat.div_le_of_le_mul (by omega)
  have hex : n * 3600 < 2 ^ 53 → A = n * 3600 := by
    intro hlt
    have b1 : bitLen (n * 60) ≤ 53 := bitLen_le _ 53 (by omega)
    have z1 : s1 = 0 := by omega
    have b2 : bitLen (r1 * 60) ≤ 53 := bitLen_le _ 53 (by rw [hz1 z1]; omega)
    have z2 : s2 = 0 := by omega
    have := hA0 z2
    have := hR1z z1
    omega
  refine ⟨A / 2 ^ k, r2, k - (s2 + s1), _, _, m1, ?_, hd, by omega, c1, c2, ?_⟩
  · rw [m2, hexp]
  · intro hlt
    rw [hex hlt]

theorem roundShift_zero_left (sh : Nat) : roundShift 0 sh = 0 := by
  have : 0 < 2 ^ sh := by positivity
  simp [roundShift]

theorem roundF64_neg (m e : Int) (r e1 : Int) (h : roundF64 m e = F64.finite r e1) :
    roundF64 (-m) e = F64.finite (-r) e1 := by
  unfold roundF64 at h ⊢
  simp only [Int.natAbs_neg] at h ⊢
  split at h
  · cases h
  · rename_i hc
    rw [if_neg hc]
    simp only [F64.finite.injEq] at h ⊢
    obtain ⟨h1, h2⟩ := h
    refine ⟨?_, h2⟩
    rcases lt_trichotomy m 0 with hm | hm | hm
    · rw [if_pos hm] at h1
      rw [if_neg (by omega), ← h1]
      simp
    · subst hm
      simp only [Int.natAbs_zero, roundShift_zero_left] at h1 ⊢
      simp at h1 ⊢
      omega
    · rw [if_neg (by omega)] at h1
      rw [if_pos (by omega), ← h1]

theorem mul_sixty_neg (m e r e1 : Int)
    (h : (F64.finite m e).mul sixty = F64.finite r e1) :
    (F64.finite (-m) e).mul sixty = F64.finite (-r) e1 := by
  simp only [F64.mul, sixty] at h ⊢
  rw [neg_mul]
  exact roundF64_neg _ _ _ _ h

theorem truncPow2_neg (m e : Int) : truncPow2 (-m) e = -truncPow2 m e := by
  unfold truncPow2
  split
  · ring
  · rw [Int.neg_tdiv]

theorem toInt_small (r e : Nat) (d : Nat) (hd : r / 2 ^ e = d) (hs : d ≤ 2251799813685249) :
    (F64.finite (r : Int) (-(e : Int))).toInt = some (d : Int)
      ∧ (F64.finite (-(r : Int)) (-(e : Int))).toInt = some (-(d : Int)) := by
  simp only [F64.toInt, truncPow2_neg, truncPow2_natCast, hd]
  constructor
  · rw [if_pos (by constructor <;> omega)]
  · rw [if_pos (by constructor <;> omega)]

theorem hoursSeconds_close (m : Int) (k : Nat) (hk : k ≤ 1074)
    (hb : m.natAbs * 3600 ≤ 2 ^ (51 + k)) :
    ∃ d : Int, hoursSeconds (F64.finite m (-(k : Int))) = some d
      ∧ |d - truncPow2 (m * 3600) (-(k : Int))| ≤ 1
      ∧ (m.natAbs * 3600 < 2 ^ 53 → d = truncPow2 (m * 3600) (-(k : Int))) := by
  obtain ⟨d, r, e, r1, e1, h1, h2, hd, hs, c1, c2, hx⟩ := hoursSeconds_nat m.natAbs k hk hb
  obtain ⟨t1, t2⟩ := toInt_small r e d hd hs
  have hT : truncPow2 ((m.natAbs : Int) * 3600) (-(k : Int))
      = ((m.natAbs * 3600 / 2 ^ k : Nat) : Int) := by
    rw [← truncPow2_natCast]; push_cast; rfl
  rcases Int.natAbs_eq m with hm | hm
  · refine ⟨(d : Int), ?_, ?_, ?_⟩
    · rw [hm]; unfold hoursSeconds; rw [h1, h2, t1]
    · rw [hm, hT, abs_le]; constructor <;> omega
    · intro hlt; rw [hm, hT, hx hlt]
  · refine ⟨-(d : Int), ?_, ?_, ?_⟩
    · rw [hm]; unfold hoursSeconds
      rw [mul_sixty_neg _ _ _ _ h1, mul_sixty_neg _ _ _ _ h2, t2]
    · rw [hm, neg_mul, truncPow2_neg, hT, abs_le]; constructor <;> omega
    · intro hlt; rw [hm, neg_mul, truncPow2_neg, hT, hx hlt]

/-! ## The claims -/

/-- C10: for every duration `D ≥ 1`, next to a consumer that drains `endtimer`,
the values the consumer receives from `endtimer` are exactly `D, D-1, ..., 0`
(`D+1` values, the `i`-th being `D - i`, none negative) and nothing is left in
the channel; `startCountDown(D)` sends exactly these, closes `done` once, right
after the send of `0` and after no earlier send, and then does nothing more. -/
theorem startCountDown_counts_down (D : Nat) (hD : 1 ≤ D) (n : Nat) (hn : 3 * D + 1 ≤ n) :
    (countdownConsumed D n).2 = ((List.range (D + 1)).reverse.map fun (k : Nat) => (k : Int))
      ∧ (countdownConsumed D n).2.length = D + 1
      ∧ (∀ i, i ≤ D → (countdownConsumed D n).2[i]? = some ((D : Int) - i))
      ∧ (∀ v, v ∈ (countdownConsumed D n).2 → 0 ≤ v)
      ∧ (countdownConsumed D n).1.endtimer = []
      ∧ (countdownConsumed D n).1 = countdown D n
      ∧ (countdown D n).trace
        = ((List.range (D + 1)).reverse.map fun (k : Nat) => Event.publish (k : Int))
          ++ [Event.closeDone]
      ∧ (countdown D n).trace.length = D + 2
      ∧ (∀ i, i ≤ D → (countdown D n).trace[i]? = some (Event.publish ((D : Int) - i)))
      ∧ (countdown D n).trace[D + 1]? = some Event.closeDone
      ∧ (∀ v, Event.publish v ∈ (countdown D n).trace → 0 ≤ v)
      ∧ (countdown D n).done = true
      ∧ (countdown D n).panicked = false := by
  obtain ⟨m, rfl⟩ : ∃ m, D = m + 1 := ⟨D - 1, by omega⟩
  obtain ⟨k, rfl⟩ : ∃ k, n = 3 * (m + 1) + 1 + k := ⟨n - (3 * (m + 1) + 1), by omega⟩
  have h := countdown_done m k
  have hc : (((m + 1 : Nat) : Int)) = (m : Int) + 1 := by push_cast; rfl
  obtain ⟨s1, s2, s3⟩ := countdownConsumed_spec ((m + 1 : Nat) : Int) (3 * (m + 1) + 1 + k)
  have htr : (atSelect ((m : Int) + 1) 0 (publishesFrom (m + 1) ++ [.closeDone]) true).trace
      = publishesFrom (m + 1) ++ [.closeDone] := rfl
  have hlen : (publishesFrom (m + 1)).length = m + 2 := by simp [publishesFrom]
  rw [hc] at s1 s2 s3 ⊢
  rw [h, htr, publishedValues_publishesFrom] at s3
  rw [s3, h, htr]
  refine ⟨rfl, by simp, ?_, ?_, s2, by rw [s1, h], rfl, by simp [hlen], ?_, ?_, ?_, rfl, rfl⟩
  · intro i hi
    simp only [List.getElem?_map]
    rw [List.getElem?_reverse (by simp; omega)]
    simp only [List.length_range]
    rw [List.getElem?_range (by omega)]
    simp only [Option.map_some', Option.some.injEq]
    omega
  · intro v hv
    simp only [List.mem_map, List.mem_reverse, List.mem_range] at hv
    obtain ⟨a, _, ha⟩ := hv
    omega
  · intro i hi
    rw [List.getElem?_append_left (by rw [hlen]; omega)]
    simp only [publishesFrom, List.getElem?_map]
    rw [List.getElem?_reverse (by simp; omega)]
    simp only [List.length_range]
    rw [List.getElem?_range (by omega)]
    simp only [Option.map_some', Option.some.injEq, Event.publish.injEq]
    omega
  · rw [List.getElem?_append_right (by rw [hlen])]
    simp [hlen]
  · intro v hv
    simp only [publishesFrom, List.mem_append, List.mem_map, List.mem_reverse, List.mem_range,
      List.mem_singleton] at hv
    rcases hv with ⟨a, _, ha⟩ | hv
    · simp only [Event.publish.injEq] at ha
      omega
    · cases hv

theorem startCountDown_counts_down_witness :
    (countdownConsumed (2 : Nat) 7).2 = [2, 1, 0]
      ∧ (countdownConsumed (2 : Nat) 7).1.endtimer = []
      ∧ (countdown (2 : Nat) 7).trace
          = [Event.publish 2, Event.publish 1, Event.publish 0, Event.closeDone] :=
  ⟨(startCountDown_counts_down 2 (by decide) 7 (by decide)).1.trans (by decide),
   (startCountDown_counts_down 2 (by decide) 7 (by decide)).2.2.2.2.1,
   (startCountDown_counts_down 2 (by decide) 7 (by decide)).2.2.2.2.2.2.1.trans (by decide)⟩

/-- C1 (failing input `D = 0`): `startCountDown(0)` publishes `0` and then `-1`,
two values, the second outside `[0, D]`, and closes `done` after the `-1`. -/
theorem startCountDown_zero_overshoots (k : Nat) :
    (countdown 0 (k + 4)).trace
      = [Event.publish 0, Event.publish (-1), Event.closeDone] := by
  rw [countdown_zero]; rfl

/-- C9 (the loop does not end): in every interleaving and for every duration
`startCountDown` never returns; with `D = 1` it has closed `done` after four
steps and from then on stays at its `select`, publishing nothing more. -/
theorem startCountDown_never_returns (D : Int) (sched : List Action) (n : Nat) :
    (run (World.init D) sched).tickerPc ≠ TickerPc.returned
      ∧ (countdown D n).tickerPc ≠ TickerPc.returned
      ∧ (countdown 1 (n + 4)).done = true
      ∧ (countdown 1 (n + 4)).tickerPc = TickerPc.select
      ∧ (countdown 1 (n + 4)).trace
          = [Event.publish 1, Event.publish 0, Event.closeDone] := by
  refine ⟨run_tickerPc _ _ (by simp [World.init]), countdown_tickerPc D n, ?_⟩
  have h := countdown_done 0 n
  have e : 3 * (0 + 1) + 1 + n = n + 4 := by ring
  rw [e] at h
  simp only [Nat.cast_zero, zero_add] at h
  rw [h]
  exact ⟨rfl, rfl, by decide⟩

/-- C2, as the claim states it, fails: in a reachable state where `audioDone`
is closed and `IsPlaying()` is `false`, `waitForExit` ends the process with
exit code `1`, not `0`. -/
theorem waitForExit_exit_code_not_zero :
    aboutToExit.audioDone = true ∧ aboutToExit.watcherPc = WatcherPc.poll
      ∧ aboutToExit.playing = false ∧ aboutToExit.alive = true
      ∧ (step aboutToExit Action.watcher).exitCode = some 1
      ∧ (step aboutToExit Action.watcher).exitCode ≠ some 0 := by
  decide

/-- C2, amended: when `waitForExit`, polling after `audioDone` was closed,
observes `IsPlaying() == false`, it ends the process with exit code `1`
(`os.Exit(1)`), directly after that observation. -/
theorem waitForExit_exits_with_one (w : World) (hpc : w.watcherPc = WatcherPc.poll)
    (hp : w.playing = false) (ha : w.alive = true) :
    waitForExitStep w
        = some { w with exitCode := some 1,
                        trace := w.trace ++ [Event.isPlaying false, Event.osExit 1] }
      ∧ (step w Action.watcher).exitCode = some 1
      ∧ (step w Action.watcher).alive = false := by
  have hs : step w Action.watcher
      = { w with exitCode := some 1,
                 trace := w.trace ++ [Event.isPlaying false, Event.osExit 1] } := by
    simp [waitForExitStep, step, hpc, hp, ha]
  rw [hs]
  simp [waitForExitStep, hpc, hp, World.alive]

theorem waitForExit_exits_with_one_witness :
    (step aboutToExit Action.watcher).exitCode = some 1 :=
  (waitForExit_exits_with_one aboutToExit (by decide) (by decide) (by decide)).2.1

/-- C3 (a second `Update` fires again): whenever `done` and `audioDone` are
both closed, `Update` rewinds and plays again and panics on closing
`audioDone` a second time; this happens in the second render cycle when the
countdown ended before the first frame. -/
theorem update_fires_again (w : World) :
    (Update { w with done := true, audioDone := true }).panicked = true
      ∧ (Update { w with done := true, audioDone := true }).trace
          = w.trace ++ [Event.rewind, Event.play, Event.panicCloseOfClosed]
      ∧ afterFirstCycle.alive = true ∧ afterFirstCycle.inDraw = false
      ∧ afterFirstCycle.done = true ∧ afterFirstCycle.audioDone = true
      ∧ (step afterFirstCycle Action.update).panicked = true
      ∧ (step afterFirstCycle Action.update).trace
          = [Event.publish 0, Event.publish (-1), Event.closeDone, Event.rewind, Event.play,
             Event.closeAudioDone, Event.rewind, Event.play, Event.panicCloseOfClosed] := by
  refine ⟨by simp [Update], by simp [Update], ?_⟩
  decide

/-- Two-digit, zero-padded form of `%02d` for the values `0 .. 99`. -/
theorem fmtD02_two_digits (n : Nat) (h : n < 100) :
    fmtD02 (n : Int) = String.mk [Nat.digitChar (n / 10), Nat.digitChar (n % 10)] := by
  revert n
  set_option maxRecDepth 100000 in decide

/-- C4: for every `e ≥ 0` that `Draw` receives while the alert is not playing,
the text drawn is `%02d:%02d:%02d` of `hours = e div 3600`,
`minutes = (e mod 3600) div 60`, `seconds = e mod 60`; these satisfy
`hours*3600 + minutes*60 + seconds = e`, `0 ≤ minutes < 60`, `0 ≤ seconds < 60`,
minutes and seconds are written as exactly two digits, and `3661` and `3660`
are rendered as `01:01:01` and `01:01:00`. -/
theorem draw_readout (w : World) (e : Int) (rest : List Int) (he : 0 ≤ e) :
    Draw { w with endtimer := e :: rest, playing := false }
        = some ({ w with endtimer := rest, playing := false },
            Rendered.text
              (fmtD02 (e / 3600) ++ ":" ++ fmtD02 (e % 3600 / 60) ++ ":" ++ fmtD02 (e % 60))
              20 40)
      ∧ e / 3600 * 3600 + e % 3600 / 60 * 60 + e % 60 = e
      ∧ 0 ≤ e / 3600
      ∧ 0 ≤ e % 3600 / 60 ∧ e % 3600 / 60 < 60
      ∧ 0 ≤ e % 60 ∧ e % 60 < 60
      ∧ fmtD02 (e % 3600 / 60)
          = String.mk [Nat.digitChar ((e % 3600 / 60).toNat / 10),
                       Nat.digitChar ((e % 3600 / 60).toNat % 10)]
      ∧ fmtD02 (e % 60)
          = String.mk [Nat.digitChar ((e % 60).toNat / 10), Nat.digitChar ((e % 60).toNat % 10)]
      ∧ readout 3661 = "01:01:01" ∧ readout 3660 = "01:01:00" := by
  have hm0 : 0 ≤ e % 3600 / 60 := by omega
  have hm1 : e % 3600 / 60 < 60 := by omega
  have hs0 : 0 ≤ e % 60 := by omega
  have hs1 : e % 60 < 60 := by omega
  have two : ∀ v : Int, 0 ≤ v → v < 60 →
      fmtD02 v = String.mk [Nat.digitChar (v.toNat / 10), Nat.digitChar (v.toNat % 10)] := by
    intro v h0 h1
    have h := fmtD02_two_digits v.toNat (by omega)
    rwa [Int.toNat_of_nonneg h0] at h
  refine ⟨?_, by omega, by omega, hm0, hm1, hs0, hs1, two _ hm0 hm1, two _ hs0 hs1,
    by decide, by decide⟩
  have h1 : Int.tdiv e (60 * 60) = e / 3600 := Int.tdiv_eq_ediv he (by decide)
  have h2 : Int.tmod e (60 * 60) = e % 3600 := Int.tmod_eq_emod he (by decide)
  have h3 : Int.tdiv (e % 3600) 60 = e % 3600 / 60 :=
    Int.tdiv_eq_ediv (by omega) (by decide)
  have h4 : Int.tmod e 60 = e % 60 := Int.tmod_eq_emod he (by decide)
  simp only [Draw, chanRecv, readout, sprintfClock, h1, h2, h3, h4]
  rfl

theorem draw_readout_witness :
    Draw { World.init 3661 with endtimer := [3661, 3660], playing := false }
      = some ({ World.init 3661 with endtimer := [3660], playing := false },
          Rendered.text "01:01:01" 20 40) :=
  (draw_readout (World.init 3661) 3661 [3660] (by decide)).1.trans (by decide)

/-- Order of the signals on the `os.Exit` path: in every state that an
interleaving reaches, `audioDone` is closed only if `done` is closed, an
`os.Exit` has happened only if `audioDone` is closed and directly follows an
`IsPlaying()` that returned `false`, and a panic occurs only once `audioDone`
is closed. -/
theorem alert_order (D : Int) (sched : List Action) :
    ((run (World.init D) sched).audioDone = true → (run (World.init D) sched).done = true)
      ∧ ((run (World.init D) sched).exitCode ≠ none →
          (run (World.init D) sched).audioDone = true
          ∧ ∃ pre, (run (World.init D) sched).trace
              = pre ++ [Event.isPlaying false, Event.osExit 1])
      ∧ ((run (World.init D) sched).panicked = true →
          (run (World.init D) sched).audioDone = true) := by
  obtain ⟨h1, _, _, h4, h5⟩ := inv_run (World.init D) sched (inv_init D)
  exact ⟨h1, h4, h5⟩

theorem alert_order_witness :
    (run (World.init 0) (soundEnded ++ [Action.watcher])).exitCode = some 1
      ∧ (run (World.init 0) (soundEnded ++ [Action.watcher])).audioDone = true
      ∧ (run (World.init 0) (soundEnded ++ [Action.watcher])).done = true :=
  ⟨by decide,
   ((alert_order 0 (soundEnded ++ [Action.watcher])).2.1 (by decide)).1,
   (alert_order 0 (soundEnded ++ [Action.watcher])).1
     ((alert_order 0 (soundEnded ++ [Action.watcher])).2.1 (by decide)).1⟩

/-- C5 (the process can end without the observation): when the countdown has
ended before the first frame, the second `Update` panics on the repeated
`close(audioDone)`. The process then ends while the alert is playing: there was
no `os.Exit` and no `IsPlaying()` that returned `false`, `waitForExit` has not
even made an observation. -/
theorem panic_ends_process_while_playing :
    afterFirstCycle
        = run (World.init 0) [Action.ticker, Action.ticker, Action.ticker, Action.ticker,
            Action.update, Action.draw]
      ∧ afterFirstCycle.alive = true
      ∧ (step afterFirstCycle Action.update).alive = false
      ∧ (step afterFirstCycle Action.update).panicked = true
      ∧ (step afterFirstCycle Action.update).exitCode = none
      ∧ (step afterFirstCycle Action.update).audioDone = true
      ∧ (step afterFirstCycle Action.update).playing = true
      ∧ Event.isPlaying false ∉ (step afterFirstCycle Action.update).trace
      ∧ (∀ b, Event.isPlaying b ∉ (step afterFirstCycle Action.update).trace) := by
  refine ⟨by decide, by decide, by decide, by decide, by decide, by decide, by decide,
    by decide, ?_⟩
  intro b
  cases b <;> decide

/-- C6, as the claim states it, fails: between two publishes `endtimer` is
empty, and there `Game.Draw` does not complete; the render thread waits in the
receive and later calls of `Update` do not run either. -/
theorem draw_blocks_on_empty :
    betweenPublishes.endtimer = [] ∧ betweenPublishes.alive = true
      ∧ Draw betweenPublishes = none
      ∧ (step betweenPublishes Action.draw).inDraw = true
      ∧ step (step betweenPublishes Action.draw) Action.update
          = step betweenPublishes Action.draw := by
  decide

/-- C6, amended: `Game.Draw` completes exactly when `endtimer` holds a value;
it then takes the oldest buffered value off the channel and renders that value
(or `Bump!` while the alert plays). On an empty channel it does not complete,
and no earlier value is kept to draw again. -/
theorem draw_receives_oldest (w : World) (e : Int) (rest : List Int) :
    (Draw w = none ↔ w.endtimer = [])
      ∧ Draw { w with endtimer := e :: rest }
          = some ({ w with endtimer := rest },
              if w.playing then Rendered.debugPrint "Bump!"
              else Rendered.text (readout e) 20 40) := by
  constructor
  · unfold Draw chanRecv
    cases w.endtimer <;> simp
  · simp [Draw, chanRecv]

/-- C7 (the countdown starts all the same): when `ParseFloat` reports an error,
`hoursCmd.Run` prints its message and then still starts `startCountDown`,
`waitForExit` and the game; for an argument like `abc` (value `0`) it starts
`startCountDown(0)`, which publishes at once. -/
theorem hoursRun_starts_countdown_on_error (numberFlt : F64) :
    hoursRun numberFlt true
        = [Effect.println "Could not read value for timer.",
           Effect.printlnSeconds "153762" (hoursSeconds numberFlt),
           Effect.goStartCountDown (hoursSeconds numberFlt),
           Effect.goWaitForExit, Effect.openGame]
      ∧ hoursRun (F64.finite 0 0) true
        = [Effect.println "Could not read value for timer.",
           Effect.printlnSeconds "153762" (some 0),
           Effect.goStartCountDown (some 0),
           Effect.goWaitForExit, Effect.openGame]
      ∧ (countdown 0 1).trace = [Event.publish 0] := by
  refine ⟨rfl, by decide, by decide⟩

/-- C8, as the claim states it, fails: for the `float64` value of `0.3` the code
passes `1080` while that value times `3600` truncates to `1079`; and for
`0.03`, whose nearest `float64` is `8646911284551352 * 2^-58`, the code passes
`107` although `0.03 * 3600 = 108`. -/
theorem hoursSeconds_not_truncated_product :
    hoursSeconds threeTenths = some 1080
      ∧ truncPow2 (5404319552844595 * 3600) (-54) = 1079
      ∧ hoursSeconds threeHundredths = some 107
      ∧ truncPow2 (8646911284551352 * 3600) (-58) = 107
      ∧ |100 * (8646911284551352 : Int) - 3 * 2 ^ 58| ≤ 50
      ∧ (3 * 3600 : Int) = 108 * 100 := by
  refine ⟨by decide, by decide, by decide, by decide, by decide, by decide⟩

/-- C8, amended: for every finite `float64` value `v = m * 2^-k` (`k ≤ 1074`) with
`|v| * 3600 ≤ 2^51`, `hoursCmd.Run` passes to the countdown the `float64`
product `v * 60 * 60`, each multiplication rounded to nearest, truncated to an
integer; this differs from `v * 3600` truncated by at most one second and
equals it whenever `|m| * 3600 < 2^53`, when both products are exact; in
particular `1.5` yields `5400`. -/
theorem hoursSeconds_within_one_second (m : Int) (k : Nat) (hk : k ≤ 1074)
    (hb : m.natAbs * 3600 ≤ 2 ^ (51 + k)) :
    ∃ d : Int,
      hoursRun (F64.finite m (-(k : Int))) false
          = [Effect.printlnSeconds "153762" (some d), Effect.goStartCountDown (some d),
             Effect.goWaitForExit, Effect.openGame]
        ∧ hoursSeconds (F64.finite m (-(k : Int))) = some d
        ∧ |d - truncPow2 (m * 3600) (-(k : Int))| ≤ 1
        ∧ (m.natAbs * 3600 < 2 ^ 53 → d = truncPow2 (m * 3600) (-(k : Int)))
        ∧ hoursSeconds (F64.finite 3 (-1)) = some 5400 := by
  obtain ⟨d, h1, h2, h3⟩ := hoursSeconds_close m k hk hb
  refine ⟨d, ?_, h1, h2, h3, by decide⟩
  simp [hoursRun, h1]

theorem hoursSeconds_within_one_second_witness :
    hoursSeconds (F64.finite 3 (-((1 : Nat) : Int))) = some 5400 := by
  obtain ⟨d, _, h, _, hx, _⟩ := hoursSeconds_within_one_second 3 1 (by decide) (by decide)
  rw [h, hx (by decide)]
  decide

end Ding
